import Mathlib

/-!
# Verification of the duplicate-content detection core

Shallow embedding of the duplication-scoring core of the `mad-useful`
code-metrics CLI (`src/analysis.rs`, with the private copy in `src/main.rs`).

Modelling conventions:
* File content is a list of bytes (`List Nat`); the code only ever feeds the
  chunker ASCII text, on which Rust `char` operations and byte operations
  coincide byte for byte.
* Rust `u64` arithmetic (`wrapping_mul`/`wrapping_add`) is `Nat` arithmetic
  reduced `% 2 ^ 64` at each step; the rolling-hash arithmetic is `Nat`
  arithmetic reduced `% 1000000007`, which coincides with the source's `u64`
  arithmetic because every intermediate value there is below `2 ^ 39`.
* `x & 0xFF == 0` is written `x &&& 255 = 0`.
* File I/O is abstracted as a map from path identifiers (`Nat`) to a
  `FileInfo` record holding the outcome of the binary sniff
  (`is_binary(path)`) and of the buffered line read; `Except Unit` stands in
  for `Result<_, std::io::Error>`.
* `BufReader::lines` (an external collaborator) delivers lines without `\n`;
  normalization theorems therefore quantify over line lists.
-/

/-- Embeds `pat.isPrefixOf s` for byte lists, written out (pattern first). -/
def startsWith : List Nat → List Nat → Bool
  | [], _ => true
  | _ :: _, [] => false
  | p :: ps, a :: rest => p == a && startsWith ps rest

/-- Does `pat` occur as a contiguous substring of `s`? -/
def hasInfix (pat : List Nat) : List Nat → Bool
  | [] => startsWith pat []
  | a :: rest => startsWith pat (a :: rest) || hasInfix pat rest

/-- One fuel-indexed step of Rust `str::replace(pat, "")`: leftmost
non-overlapping occurrences of `pat` are deleted, scanning left to right.
Fuel bounds the recursion; with fuel `s.length` it never runs out because
each step consumes at least one element of `s`. -/
def removeSubAllFuel (pat : List Nat) : Nat → List Nat → List Nat
  | 0, s => s
  | _, [] => []
  | fuel + 1, a :: rest =>
    if pat ≠ [] ∧ startsWith pat (a :: rest) = true then
      removeSubAllFuel pat fuel ((a :: rest).drop pat.length)
    else
      a :: removeSubAllFuel pat fuel rest

/-- Rust `str::replace(pat, "")` on byte lists. -/
def removeSubAll (pat s : List Nat) : List Nat :=
  removeSubAllFuel pat s.length s

/-- ASCII fragment of Rust `char::is_whitespace` (all that can occur in a
byte of a line). -/
def is_ws_byte (b : Nat) : Bool := b == 32 || (9 ≤ b && b ≤ 13)

/-- Rust `str::trim` on byte lists. -/
def trim_bytes (s : List Nat) : List Nat :=
  ((s.dropWhile is_ws_byte).reverse.dropWhile is_ws_byte).reverse

/-- Rust `str::to_lowercase` restricted to ASCII bytes. -/
def to_lower_byte (b : Nat) : Nat := if 65 ≤ b ∧ b ≤ 90 then b + 32 else b

/-- Embeds `normalize_line` from `src/analysis.rs`:
`line.trim().replace([' ', '\t'], "").replace("//", "").replace("/*", "")
.replace("*/", "").replace('#', "").to_lowercase()`.
The char-set replace and the single-char replace delete every occurrence of
the character, hence are filters. -/
def normalize_line (line : List Nat) : List Nat :=
  ((removeSubAll [42, 47] (removeSubAll [47, 42] (removeSubAll [47, 47]
      ((trim_bytes line).filter (fun b => !(b == 32 || b == 9)))))).filter
    (fun b => b != 35)).map to_lower_byte

/-- Embeds `read_normalized_content` from `src/analysis.rs`, over the line list the
reader delivers: normalize each line, drop empty results, append `'\n'`
(byte 10) after each kept line. -/
def read_normalized_content (lines : List (List Nat)) : List Nat :=
  lines.foldl
    (fun acc l =>
      let cleaned := normalize_line l
      if cleaned = [] then acc else acc ++ cleaned ++ [10])
    []

/-- Embeds `simple_hash` from `src/analysis.rs`:
`hash = hash.wrapping_mul(31).wrapping_add(byte)` over the bytes in order. -/
def simple_hash (bytes : List Nat) : Nat :=
  bytes.foldl (fun hash byte => (hash * 31 + byte) % 2 ^ 64) 0

/-- Loop body of `fast_pow` from `src/analysis.rs`, fuel-indexed: the Rust
`while e > 0` loop halves `e` each round, so fuel `exp` suffices (the
recursion stops at `e = 0` long before the fuel runs out). -/
def fast_pow_loop : Nat → Nat → Nat → Nat → Nat → Nat
  | 0, _, _, _, result => result
  | fuel + 1, m, b, e, result =>
    if e = 0 then result
    else
      fast_pow_loop fuel m (b * b % m) (e / 2)
        (if e % 2 = 1 then result * b % m else result)

/-- Embeds `fast_pow(base, exp, modulus)` from `src/analysis.rs`. -/
def fast_pow (base exp modulus : Nat) : Nat :=
  fast_pow_loop exp modulus (base % modulus) exp 1

/-- The polynomial-hash fold of `extract_chunks`
(`hash = (hash * 257 + byte) % 1000000007`), used both for the initial
window (the `for i in 0..window_size` loop) and as the direct recomputation
a rolling update must agree with. -/
def direct_hash (w : List Nat) : Nat :=
  w.foldl (fun hash byte => (hash * 257 + byte) % 1000000007) 0

/-- One rolling update from the `for i in window_size..bytes.len()` loop of
`extract_chunks`: remove the leaving byte's contribution
(`byte * fast_pow(257, 31, M) % M`, subtracted via `+ M - _`), then multiply
by the base and add the entering byte. `fast_pow` is recomputed every
iteration, exactly as in the source. -/
def roll_step (hash outByte inByte : Nat) : Nat :=
  ((hash + 1000000007
      - outByte * fast_pow 257 (32 - 1) 1000000007 % 1000000007) % 1000000007
      * 257 + inByte) % 1000000007

/-- The rolling-hash state of `extract_chunks` as a recurrence: state `k` is
the hash the loop holds at iteration `i = k + 32` (a hash of the window
`bytes[k .. k+32)`), starting from the initial-window hash and applying one
`roll_step` per slide. -/
def rolling_hash_iter (bytes : List Nat) : Nat → Nat
  | 0 => direct_hash (bytes.take 32)
  | k + 1 => roll_step (rolling_hash_iter bytes k) (bytes.getD k 0)
      (bytes.getD (k + 32) 0)

/-- The boundary list of `extract_chunks`: position `i - 32` is pushed at
iteration `i` whenever the rolling hash entering that iteration has its low
8 bits zero (`rolling_hash & 0xFF == 0`), for `i` in `[32, bytes.len())`,
i.e. `k = i - 32` in `[0, bytes.len() - 32)`. -/
def boundaries (bytes : List Nat) : List Nat :=
  (List.range (bytes.length - 32)).filterMap
    (fun k => if rolling_hash_iter bytes k &&& 255 = 0 then some k else none)

/-- Body of the `for &boundary in &boundaries` loop of `extract_chunks`:
state is (chunks so far, `start`); a fingerprint of `bytes[start..boundary]`
is emitted when `boundary > start && boundary - start >= 20`, and `start`
advances to `boundary` unconditionally. -/
def chunk_step (bytes : List Nat) (st : List Nat × Nat) (boundary : Nat) :
    List Nat × Nat :=
  (if st.2 < boundary ∧ 20 ≤ boundary - st.2 then
      st.1 ++ [simple_hash ((bytes.drop st.2).take (boundary - st.2))]
    else st.1,
   boundary)

/-- Embeds `extract_chunks` from `src/analysis.rs`: zero chunks below the 32-byte
window, otherwise fold the boundary loop and then handle the trailing span
`bytes[start..]` (emitted when `bytes.len() > start && bytes.len() - start
>= 20`). -/
def extract_chunks (content : List Nat) : List Nat :=
  if content.length < 32 then []
  else
    let st := (boundaries content).foldl (chunk_step content) ([], 0)
    if st.2 < content.length ∧ 20 ≤ content.length - st.2 then
      st.1 ++ [simple_hash (content.drop st.2)]
    else st.1

/-- Outcome of the file-system interactions `calculate_duplication_percentage`
performs on one path: the `is_binary` sniff and the buffered line read. -/
structure FileInfo where
  binCheck : Except Unit Bool
  lines : Except Unit (List (List Nat))

/-- Rust `Result::unwrap_or`. -/
def unwrap_or {α : Type} (e : Except Unit α) (d : α) : α :=
  match e with
  | .ok a => a
  | .error _ => d

/-- Runs `read_normalized_content(path)` through the abstract file system:
a failed read propagates as an error. -/
def read_normalized_content_fs (fs : Nat → FileInfo) (p : Nat) :
    Except Unit (List Nat) :=
  match (fs p).lines with
  | .error e => .error e
  | .ok ls => .ok (read_normalized_content ls)

/-- The corpus-index build loop of `calculate_duplication_percentage`: for
every corpus member, skip it when it is the target or when
`is_binary(other).unwrap_or(true)` holds, skip it when its read fails, and
otherwise add all its chunk fingerprints. The Rust `HashSet` is modelled as
a list queried only through membership. -/
def corpus_index (fs : Nat → FileInfo) (target : Nat) (all_files : List Nat) :
    List Nat :=
  all_files.foldl
    (fun acc p =>
      if p = target ∨ unwrap_or (fs p).binCheck true = true then acc
      else
        match (fs p).lines with
        | .error _ => acc
        | .ok ls => acc ++ extract_chunks (read_normalized_content ls))
    []

/-- Embeds `calculate_duplication_percentage` from `src/analysis.rs`. -/
def calculate_duplication_percentage (fs : Nat → FileInfo) (target : Nat)
    (all_files : List Nat) : Except Unit Nat :=
  match (fs target).binCheck with
  | .error e => .error e
  | .ok true => .ok 0
  | .ok false =>
    match (fs target).lines with
    | .error e => .error e
    | .ok tlines =>
      let target_content := read_normalized_content tlines
      if target_content.length < 100 then .ok 0
      else
        let target_chunks := extract_chunks target_content
        if target_chunks = [] then .ok 0
        else
          let all_chunks := corpus_index fs target all_files
          let duplicate_chunks :=
            (target_chunks.filter (fun c => decide (c ∈ all_chunks))).length
          let duplication_percentage :=
            if target_chunks = [] then 0
            else duplicate_chunks * 100 / target_chunks.length
          .ok (min duplication_percentage 100)

/-!
## The private duplicate of the core in `src/main.rs`

`src/main.rs` lines 734–877 hold a second, private implementation of the
same six functions. Its text differs from `src/analysis.rs` only in
`bytes[i] as u64` versus `u64::from(bytes[i])` (identical semantics) and in
`.replace("#", "")` (string pattern) versus `.replace('#', "")` (char
pattern); the string pattern is embedded as substring removal, to be proved
equal to the char filter. -/

namespace MainRs

/-- Embeds `normalize_line` from `src/main.rs` (note `.replace("#", "")`). -/
def normalize_line (line : List Nat) : List Nat :=
  (removeSubAll [35] (removeSubAll [42, 47] (removeSubAll [47, 42]
      (removeSubAll [47, 47]
        ((trim_bytes line).filter (fun b => !(b == 32 || b == 9))))))).map
    to_lower_byte

/-- Embeds `read_normalized_content` from `src/main.rs`. -/
def read_normalized_content (lines : List (List Nat)) : List Nat :=
  lines.foldl
    (fun acc l =>
      let cleaned := MainRs.normalize_line l
      if cleaned = [] then acc else acc ++ cleaned ++ [10])
    []

/-- Embeds `simple_hash` from `src/main.rs`. -/
def simple_hash (bytes : List Nat) : Nat :=
  bytes.foldl (fun hash byte => (hash * 31 + byte) % 2 ^ 64) 0

/-- Embeds `fast_pow` from `src/main.rs` (same fuel convention as the
`src/analysis.rs` embedding). -/
def fast_pow (base exp modulus : Nat) : Nat :=
  fast_pow_loop exp modulus (base % modulus) exp 1

/-- Initial-window / direct polynomial hash of `extract_chunks` from
`src/main.rs`. -/
def direct_hash (w : List Nat) : Nat :=
  w.foldl (fun hash byte => (hash * 257 + byte) % 1000000007) 0

/-- Rolling update of `extract_chunks` from `src/main.rs`. -/
def roll_step (hash outByte inByte : Nat) : Nat :=
  ((hash + 1000000007
      - outByte * MainRs.fast_pow 257 (32 - 1) 1000000007 % 1000000007)
      % 1000000007 * 257 + inByte) % 1000000007

/-- Rolling-hash state recurrence of `extract_chunks` from `src/main.rs`. -/
def rolling_hash_iter (bytes : List Nat) : Nat → Nat
  | 0 => MainRs.direct_hash (bytes.take 32)
  | k + 1 => MainRs.roll_step (MainRs.rolling_hash_iter bytes k)
      (bytes.getD k 0) (bytes.getD (k + 32) 0)

/-- Boundary list of `extract_chunks` from `src/main.rs`. -/
def boundaries (bytes : List Nat) : List Nat :=
  (List.range (bytes.length - 32)).filterMap
    (fun k =>
      if MainRs.rolling_hash_iter bytes k &&& 255 = 0 then some k else none)

/-- Boundary-to-chunk loop body of `extract_chunks` from `src/main.rs`. -/
def chunk_step (bytes : List Nat) (st : List Nat × Nat) (boundary : Nat) :
    List Nat × Nat :=
  (if st.2 < boundary ∧ 20 ≤ boundary - st.2 then
      st.1 ++ [MainRs.simple_hash ((bytes.drop st.2).take (boundary - st.2))]
    else st.1,
   boundary)

/-- Embeds `extract_chunks` from `src/main.rs`. -/
def extract_chunks (content : List Nat) : List Nat :=
  if content.length < 32 then []
  else
    let st := (MainRs.boundaries content).foldl (MainRs.chunk_step content)
      ([], 0)
    if st.2 < content.length ∧ 20 ≤ content.length - st.2 then
      st.1 ++ [MainRs.simple_hash (content.drop st.2)]
    else st.1

/-- Corpus-index build loop of `calculate_duplication_percentage` from
`src/main.rs`. -/
def corpus_index (fs : Nat → FileInfo) (target : Nat)
    (all_files : List Nat) : List Nat :=
  all_files.foldl
    (fun acc p =>
      if p = target ∨ unwrap_or (fs p).binCheck true = true then acc
      else
        match (fs p).lines with
        | .error _ => acc
        | .ok ls => acc ++ MainRs.extract_chunks (MainRs.read_normalized_content ls))
    []

/-- Embeds `calculate_duplication_percentage` from `src/main.rs`. -/
def calculate_duplication_percentage (fs : Nat → FileInfo) (target : Nat)
    (all_files : List Nat) : Except Unit Nat :=
  match (fs target).binCheck with
  | .error e => .error e
  | .ok true => .ok 0
  | .ok false =>
    match (fs target).lines with
    | .error e => .error e
    | .ok tlines =>
      let target_content := MainRs.read_normalized_content tlines
      if target_content.length < 100 then .ok 0
      else
        let target_chunks := MainRs.extract_chunks target_content
        if target_chunks = [] then .ok 0
        else
          let all_chunks := MainRs.corpus_index fs target all_files
          let duplicate_chunks :=
            (target_chunks.filter (fun c => decide (c ∈ all_chunks))).length
          let duplication_percentage :=
            if target_chunks = [] then 0
            else duplicate_chunks * 100 / target_chunks.length
          .ok (min duplication_percentage 100)

/-- The `--duplicates` branch of `main` (`src/main.rs` line 108):
`calculate_duplication_percentage(path, &files).unwrap_or(0)` — the value
the scoring pass displays for a file; an `Err` degrades to 0. -/
def display_duplication (fs : Nat → FileInfo) (target : Nat)
    (all_files : List Nat) : Nat :=
  unwrap_or (MainRs.calculate_duplication_percentage fs target all_files) 0

end MainRs

/-- Modelled from the spec: the chunk-span conversion as §4.2 words it —
"shorter spans are silently merged forward (the boundary is skipped, not
emitted as a separate chunk)". Identical to `extract_chunks` except that
`start` advances to a boundary only when that boundary's span was emitted;
a skipped boundary leaves `start` unchanged, so the short span's bytes fall
into the following span. For comparison against the source's behaviour. -/
def extract_chunks_mergeForward (content : List Nat) : List Nat :=
  if content.length < 32 then []
  else
    let st := (boundaries content).foldl
      (fun st boundary =>
        if st.2 < boundary ∧ 20 ≤ boundary - st.2 then
          (st.1 ++ [simple_hash ((content.drop st.2).take (boundary - st.2))],
           boundary)
        else st)
      ([], 0)
    if st.2 < content.length ∧ 20 ≤ content.length - st.2 then
      st.1 ++ [simple_hash (content.drop st.2)]
    else st.1

/-- 52 lowercase letters whose only gear boundary is at position 19:
`"cxdjkhiqblacemlxuwhdvkiaqkdlzzuxetimcvstxqpsnrmjhujr"`. The span
`[0, 19)` is shorter than 20 bytes, so the source discards those bytes,
while a merge-forward chunker would fold them into the trailing chunk. -/
def shortSpanContent : List Nat :=
  [99, 120, 100, 106, 107, 104, 105, 113, 98, 108, 97, 99, 101, 109, 108,
   120, 117, 119, 104, 100, 118, 107, 105, 97, 113, 107, 100, 108, 122, 122,
   117, 120, 101, 116, 105, 109, 99, 118, 115, 116, 120, 113, 112, 115, 110,
   114, 109, 106, 104, 117, 106, 114]

/-- A 100-character line of `'a'`s: normalizes to 100 bytes plus the
appended newline, 101 bytes in all, and yields exactly one chunk. -/
def demoLine : List Nat := List.replicate 100 97

/-- A file system in which every path is a readable, non-binary file whose
sole line is `demoLine`. -/
def demoFS : Nat → FileInfo :=
  fun _ => { binCheck := .ok false, lines := .ok [demoLine] }

/-- A file system whose path 1 fails both the binary sniff and the content
read; every other path reads as the `demoLine` file. -/
def errFS : Nat → FileInfo :=
  fun p =>
    if p = 1 then { binCheck := .error (), lines := .error () }
    else { binCheck := .ok false, lines := .ok [demoLine] }

/-- A file system whose files normalize to exactly 99 bytes (a 98-character
line plus the appended newline). -/
def smallFS : Nat → FileInfo :=
  fun _ => { binCheck := .ok false, lines := .ok [List.replicate 98 97] }

set_option maxRecDepth 100000

instance exceptDecEq {ε α : Type} [DecidableEq ε] [DecidableEq α] :
    DecidableEq (Except ε α) := fun x y =>
  match x, y with
  | .error a, .error b =>
    if h : a = b then .isTrue (by rw [h])
    else .isFalse (fun hc => h (Except.error.inj hc))
  | .error _, .ok _ => .isFalse (fun hc => Except.noConfusion hc)
  | .ok _, .error _ => .isFalse (fun hc => Except.noConfusion hc)
  | .ok a, .ok b =>
    if h : a = b then .isTrue (by rw [h])
    else .isFalse (fun hc => h (Except.ok.inj hc))

/-! ## Helper lemmas about the normalizer -/

/-- Deleting occurrences of a pattern never invents bytes. -/
theorem mem_of_mem_removeSubAllFuel {pat : List Nat} :
    ∀ (fuel : Nat) (s : List Nat) (x : Nat),
      x ∈ removeSubAllFuel pat fuel s → x ∈ s := by
  intro fuel
  induction fuel with
  | zero =>
    intro s x hx
    cases s with
    | nil => exact hx
    | cons a rest => exact hx
  | succ fuel ih =>
    intro s x hx
    cases s with
    | nil => exact hx
    | cons a rest =>
      rw [removeSubAllFuel] at hx
      split at hx
      · exact List.drop_subset _ _ (ih _ _ hx)
      · rcases List.mem_cons.mp hx with h | h
        · exact h ▸ List.mem_cons_self _ _
        · exact List.mem_cons_of_mem _ (ih _ _ h)

/-- Deleting a pattern via `removeSubAll` only removes bytes. -/
theorem mem_of_mem_removeSubAll {pat s : List Nat} {x : Nat}
    (hx : x ∈ removeSubAll pat s) : x ∈ s :=
  mem_of_mem_removeSubAllFuel _ _ _ hx

/-- Trimming only removes bytes. -/
theorem mem_of_mem_trim_bytes {s : List Nat} {x : Nat}
    (hx : x ∈ trim_bytes s) : x ∈ s := by
  unfold trim_bytes at hx
  rw [List.mem_reverse] at hx
  have h1 := List.dropWhile_subset (l := (s.dropWhile is_ws_byte).reverse)
    (p := is_ws_byte) hx
  rw [List.mem_reverse] at h1
  exact List.dropWhile_subset _ h1

/-- Removing a one-byte pattern is exactly a filter on that byte. -/
theorem removeSubAll_singleton (c : Nat) (s : List Nat) :
    removeSubAll [c] s = s.filter (fun b => b != c) := by
  unfold removeSubAll
  suffices h : ∀ fuel s, s.length ≤ fuel →
      removeSubAllFuel [c] fuel s = s.filter (fun b => b != c) from
    h s.length s le_rfl
  intro fuel
  induction fuel with
  | zero =>
    intro s hs
    rw [Nat.le_zero, List.length_eq_zero] at hs
    subst hs; rfl
  | succ fuel ih =>
    intro s hs
    cases s with
    | nil => rfl
    | cons a rest =>
      rw [removeSubAllFuel]
      simp only [List.length_cons, Nat.succ_le_succ_iff] at hs
      by_cases hac : c = a
      · subst hac
        have hsw : startsWith [c] (c :: rest) = true := by
          simp [startsWith]
        rw [if_pos ⟨by simp, hsw⟩]
        show removeSubAllFuel [c] fuel rest = List.filter (fun b => b != c) (c :: rest)
        rw [ih rest hs, List.filter_cons]
        simp
      · have hsw : startsWith [c] (a :: rest) = false := by
          simp only [startsWith, Bool.and_true]
          exact beq_false_of_ne hac
        rw [if_neg (by simp [hsw])]
        rw [ih rest hs, List.filter_cons]
        have hane : (a != c) = true := by
          simp only [bne_iff_ne, ne_eq]
          exact fun h => hac h.symm
        rw [if_pos hane]

/-- Every byte of a normalized line comes from the original line via ASCII
lowercasing, and has survived the space/tab filter and the `'#'` filter. -/
theorem normalize_line_mem {l : List Nat} {x : Nat}
    (hx : x ∈ normalize_line l) :
    ∃ a, a ∈ l ∧ x = to_lower_byte a ∧ a ≠ 32 ∧ a ≠ 9 ∧ a ≠ 35 := by
  unfold normalize_line at hx
  rcases List.mem_map.mp hx with ⟨a, ha, rfl⟩
  rcases List.mem_filter.mp ha with ⟨ha2, hne35⟩
  have ha3 := mem_of_mem_removeSubAll (mem_of_mem_removeSubAll
    (mem_of_mem_removeSubAll ha2))
  rcases List.mem_filter.mp ha3 with ⟨ha4, hst⟩
  refine ⟨a, mem_of_mem_trim_bytes ha4, rfl, ?_, ?_, ?_⟩
  · intro h; subst h; simp at hst
  · intro h; subst h; simp at hst
  · intro h; subst h; simp at hne35

/-- The bytes a normalized line may contain: never space, tab or `'#'`,
and never an ASCII uppercase letter. -/
theorem normalize_line_byte_ok {l : List Nat} {x : Nat}
    (hx : x ∈ normalize_line l) :
    x ≠ 32 ∧ x ≠ 9 ∧ x ≠ 35 ∧ ¬(65 ≤ x ∧ x ≤ 90) := by
  rcases normalize_line_mem hx with ⟨a, _, rfl, h32, h9, h35⟩
  unfold to_lower_byte
  split
  · rename_i hrange
    omega
  · rename_i hrange
    exact ⟨h32, h9, h35, fun hc => hrange ⟨hc.1, hc.2⟩⟩

/-- A normalized line contains no newline byte unless the original line did. -/
theorem normalize_line_no_newline {l : List Nat} (hl : (10 : Nat) ∉ l) :
    ∀ x ∈ normalize_line l, x ≠ 10 := by
  intro x hx
  rcases normalize_line_mem hx with ⟨a, hal, rfl, _, _, _⟩
  unfold to_lower_byte
  split
  · omega
  · intro h; subst h; exact hl hal

/-- Membership in the accumulated normalized content: every byte is either
carried over from the accumulator, a separator newline, or a byte of some
normalized line. -/
theorem read_normalized_content_mem_aux :
    ∀ (lines : List (List Nat)) (acc : List Nat) (x : Nat),
      x ∈ lines.foldl
        (fun acc l =>
          let cleaned := normalize_line l
          if cleaned = [] then acc else acc ++ cleaned ++ [10]) acc →
      x ∈ acc ∨ x = 10 ∨ ∃ l, l ∈ lines ∧ x ∈ normalize_line l := by
  intro lines
  induction lines with
  | nil => intro acc x hx; exact Or.inl hx
  | cons l ls ih =>
    intro acc x hx
    simp only [List.foldl_cons] at hx
    rcases ih _ x hx with h | h | ⟨l', hl', hx'⟩
    · by_cases hcl : normalize_line l = []
      · rw [if_pos hcl] at h
        exact Or.inl h
      · rw [if_neg hcl] at h
        rcases List.mem_append.mp h with h2 | h2
        · rcases List.mem_append.mp h2 with h3 | h3
          · exact Or.inl h3
          · exact Or.inr (Or.inr ⟨l, List.mem_cons_self _ _, h3⟩)
        · simp at h2
          exact Or.inr (Or.inl h2)
    · exact Or.inr (Or.inl h)
    · exact Or.inr (Or.inr ⟨l', List.mem_cons_of_mem _ hl', hx'⟩)

/-- Membership form of `read_normalized_content`. -/
theorem read_normalized_content_mem {lines : List (List Nat)} {x : Nat}
    (hx : x ∈ read_normalized_content lines) :
    x = 10 ∨ ∃ l, l ∈ lines ∧ x ∈ normalize_line l := by
  rcases read_normalized_content_mem_aux lines [] x hx with h | h
  · exact absurd h (List.not_mem_nil x)
  · exact h

/-- Line-start scanner: `noBlankAux atStart s` is `true` iff scanning `s`
(with `atStart` telling whether the scan begins at a line start) never meets
a newline byte at a line start — i.e. iff `s` has no blank line. -/
def noBlankAux : Bool → List Nat → Bool
  | _, [] => true
  | atStart, b :: rest =>
    if b = 10 then !atStart && noBlankAux true rest
    else noBlankAux false rest

/-- Predicate `no_blank_lines s`: scanning from a line start, no blank line occurs. -/
def no_blank_lines (s : List Nat) : Bool := noBlankAux true s

/-- Right-fold view of content assembly: each kept block, then a newline. -/
def joinBlocks : List (List Nat) → List Nat
  | [] => []
  | c :: bs => c ++ 10 :: joinBlocks bs

/-- The content-assembly fold is `joinBlocks` of the kept normalized lines. -/
theorem read_normalized_content_eq_joinBlocks_aux :
    ∀ (lines : List (List Nat)) (acc : List Nat),
      lines.foldl
        (fun acc l =>
          let cleaned := normalize_line l
          if cleaned = [] then acc else acc ++ cleaned ++ [10]) acc
      = acc ++ joinBlocks ((lines.map normalize_line).filter (fun c => !c.isEmpty)) := by
  intro lines
  induction lines with
  | nil => intro acc; simp [joinBlocks]
  | cons l ls ih =>
    intro acc
    simp only [List.foldl_cons, List.map_cons, List.filter_cons]
    by_cases hcl : normalize_line l = []
    · rw [if_pos hcl, hcl]
      simp only [List.isEmpty_nil, Bool.not_true]
      rw [ih]
      rfl
    · rw [if_neg hcl]
      have : (!(normalize_line l).isEmpty) = true := by
        simp [List.isEmpty_iff, hcl]
      rw [this]
      simp only [if_pos rfl]
      rw [ih]
      simp [joinBlocks]

/-- Views `read_normalized_content` as a join of nonempty blocks. -/
theorem read_normalized_content_eq_joinBlocks (lines : List (List Nat)) :
    read_normalized_content lines
      = joinBlocks ((lines.map normalize_line).filter (fun c => !c.isEmpty)) := by
  unfold read_normalized_content
  rw [read_normalized_content_eq_joinBlocks_aux]
  rfl

/-- Scanning a nonempty newline-free block followed by a separator lands
back at a line start without meeting a blank line. -/
theorem noBlankAux_block :
    ∀ (c : List Nat), c ≠ [] → (∀ x ∈ c, x ≠ 10) →
      ∀ (b : Bool) (t : List Nat),
        noBlankAux b (c ++ 10 :: t) = noBlankAux true t := by
  intro c
  induction c with
  | nil => intro h; exact absurd rfl h
  | cons a c' ih =>
    intro _ hno10 b t
    have ha10 : a ≠ 10 := hno10 a (List.mem_cons_self _ _)
    cases c' with
    | nil =>
      simp only [List.cons_append, List.nil_append, noBlankAux,
        if_neg ha10, if_pos rfl]
      simp [noBlankAux]
    | cons a' c'' =>
      simp only [List.cons_append, noBlankAux, if_neg ha10]
      exact ih (by simp) (fun x hx => hno10 x (List.mem_cons_of_mem _ hx))
        false t

/-- A join of nonempty newline-free blocks has no blank line. -/
theorem noBlankAux_joinBlocks :
    ∀ (blocks : List (List Nat)),
      (∀ c ∈ blocks, c ≠ [] ∧ ∀ x ∈ c, x ≠ 10) →
      noBlankAux true (joinBlocks blocks) = true := by
  intro blocks
  induction blocks with
  | nil => intro _; rfl
  | cons c bs ih =>
    intro h
    rcases h c (List.mem_cons_self _ _) with ⟨hc, hc10⟩
    rw [joinBlocks, noBlankAux_block c hc hc10 true (joinBlocks bs)]
    exact ih fun c' hc' => h c' (List.mem_cons_of_mem _ hc')

/-! ## Helper lemmas about the rolling hash -/

/-- The unreduced polynomial value `Σ bs[j] * B ^ (n-1-j)` as a fold. -/
def poly_val (B : Nat) (bs : List Nat) : Nat :=
  bs.foldl (fun h b => h * B + b) 0

/-- Folding the unreduced polynomial step from an arbitrary seed. -/
theorem poly_val_foldl_init (B : Nat) :
    ∀ (bs : List Nat) (h : Nat),
      bs.foldl (fun h b => h * B + b) h = h * B ^ bs.length + poly_val B bs := by
  intro bs
  induction bs with
  | nil => intro h; simp [poly_val]
  | cons a bs ih =>
    intro h
    rw [List.foldl_cons, ih (h * B + a)]
    have hpv : poly_val B (a :: bs) = a * B ^ bs.length + poly_val B bs := by
      show List.foldl (fun h b => h * B + b) 0 (a :: bs) = _
      rw [List.foldl_cons, ih (0 * B + a)]
      ring_nf
    rw [hpv, List.length_cons]
    ring

/-- Peeling the head byte off a polynomial value. -/
theorem poly_val_cons (B a : Nat) (t : List Nat) :
    poly_val B (a :: t) = a * B ^ t.length + poly_val B t := by
  show List.foldl (fun h b => h * B + b) 0 (a :: t) = _
  rw [List.foldl_cons, poly_val_foldl_init B t (0 * B + a)]
  ring_nf

/-- Appending a byte to a polynomial value. -/
theorem poly_val_concat (B c : Nat) (t : List Nat) :
    poly_val B (t ++ [c]) = poly_val B t * B + c := by
  unfold poly_val
  rw [List.foldl_append]
  rfl

/-- Folding with reduction mod `1000000007` at each step equals reducing the
unreduced polynomial once. -/
theorem direct_hash_foldl_mod :
    ∀ (bs : List Nat) (h : Nat),
      bs.foldl (fun h b => (h * 257 + b) % 1000000007) (h % 1000000007)
        = (bs.foldl (fun h b => h * 257 + b) h) % 1000000007 := by
  intro bs
  induction bs with
  | nil => intro h; simp
  | cons a bs ih =>
    intro h
    rw [List.foldl_cons, List.foldl_cons]
    have : (h % 1000000007 * 257 + a) % 1000000007
        = (h * 257 + a) % 1000000007 := by omega
    rw [this, ← ih (h * 257 + a)]

/-- Fact: `direct_hash` is the reduced polynomial value. -/
theorem direct_hash_eq_poly (bs : List Nat) :
    direct_hash bs = poly_val 257 bs % 1000000007 := by
  unfold direct_hash poly_val
  rw [← direct_hash_foldl_mod bs 0]

/-- The modular power the rolling update subtracts with:
`fast_pow(257, 31, 1000000007) = 257^31 mod 1000000007`. -/
theorem fast_pow_257_31 : fast_pow 257 31 1000000007 = 257 ^ 31 % 1000000007 := by
  decide

/-- Multiplying by a pre-reduced factor agrees mod the modulus. -/
theorem mul_mod_of_mod (a b M : Nat) : a * (b % M) % M = a * b % M := by
  rw [Nat.mul_mod, Nat.mod_mod_of_dvd _ dvd_rfl, ← Nat.mul_mod]

/-- One rolling update is exact: applied to the hash of a full 32-byte
window `a :: mid`, it yields the hash of the slid window `mid ++ [c]`. -/
theorem roll_step_correct (a c : Nat) (mid : List Nat)
    (hmid : mid.length = 31) :
    roll_step (direct_hash (a :: mid)) a c = direct_hash (mid ++ [c]) := by
  unfold roll_step
  rw [show (32 : Nat) - 1 = 31 from rfl, fast_pow_257_31]
  rw [direct_hash_eq_poly (a :: mid), direct_hash_eq_poly (mid ++ [c])]
  rw [poly_val_cons, hmid, poly_val_concat]
  rw [mul_mod_of_mod]
  generalize poly_val 257 mid = q
  generalize a * 257 ^ 31 = X
  omega

/-- Peeling the head byte off a 32-byte window. -/
theorem window_head (bytes : List Nat) (k : Nat) (hk : k < bytes.length) :
    (bytes.drop k).take 32 = bytes.getD k 0 :: (bytes.drop (k + 1)).take 31 := by
  rw [List.drop_eq_getElem_cons hk, List.take_succ_cons]
  rw [List.getD_eq_getElem?_getD, List.getElem?_eq_getElem hk]
  rfl

/-- Extending a 31-byte window by the entering byte. -/
theorem window_concat (bytes : List Nat) (k : Nat)
    (hk : k + 32 < bytes.length) :
    (bytes.drop (k + 1)).take 32
      = (bytes.drop (k + 1)).take 31 ++ [bytes.getD (k + 32) 0] := by
  rw [show (32 : Nat) = 31 + 1 from rfl, List.take_succ]
  congr 1
  rw [List.getElem?_drop, show k + 1 + 31 = k + 32 from rfl]
  rw [List.getElem?_eq_getElem hk]
  rw [List.getD_eq_getElem?_getD, List.getElem?_eq_getElem hk]
  rfl

/-- The rolling-hash state at every slide equals the direct hash of the
current 32-byte window. -/
theorem rolling_hash_eq_direct (bytes : List Nat) :
    ∀ k, k + 32 ≤ bytes.length →
      rolling_hash_iter bytes k = direct_hash ((bytes.drop k).take 32) := by
  intro k
  induction k with
  | zero =>
    intro _
    rw [rolling_hash_iter, List.drop_zero]
  | succ k ih =>
    intro hk
    rw [rolling_hash_iter, ih (by omega)]
    rw [window_head bytes k (by omega), window_concat bytes k (by omega)]
    exact roll_step_correct _ _ _
      (by rw [List.length_take, List.length_drop]; omega)

/-! ## Helper lemmas about boundary-to-chunk conversion -/

/-- Distributing a conditional append. -/
theorem append_ite_singleton {α : Type} (c : Prop) [Decidable c]
    (x : List α) (y : α) :
    (if c then x ++ [y] else x) = x ++ (if c then [y] else []) := by
  split <;> simp

/-- The boundary loop of `extract_chunks`, followed by the trailing-span
step, emits exactly the fingerprints of the spans between consecutive
positions of `start :: bs` paired with `bs ++ [bytes.length]` whose length
is at least 20 — `start` advances to every boundary unconditionally. -/
theorem chunk_fold_spans (bytes : List Nat) :
    ∀ (bs : List Nat) (start : Nat) (acc : List Nat),
      (bs.foldl (chunk_step bytes) (acc, start)).1
          ++ (if (bs.foldl (chunk_step bytes) (acc, start)).2 < bytes.length ∧
                20 ≤ bytes.length - (bs.foldl (chunk_step bytes) (acc, start)).2
              then [simple_hash
                     (bytes.drop (bs.foldl (chunk_step bytes) (acc, start)).2)]
              else [])
      = acc ++ ((List.zip (start :: bs) (bs ++ [bytes.length])).filter
          (fun se => decide (se.1 < se.2 ∧ 20 ≤ se.2 - se.1))).map
          (fun se => simple_hash ((bytes.drop se.1).take (se.2 - se.1))) := by
  intro bs
  induction bs with
  | nil =>
    intro start acc
    simp only [List.foldl_nil, List.nil_append, List.zip_cons_cons,
      List.zip_nil_left, List.filter_cons, List.filter_nil]
    by_cases hc : start < bytes.length ∧ 20 ≤ bytes.length - start
    · rw [if_pos hc, if_pos (decide_eq_true hc)]
      simp only [List.map_cons, List.map_nil]
      have htake : (bytes.drop start).take (bytes.length - start)
          = bytes.drop start := by
        apply List.take_of_length_le
        rw [List.length_drop]
      rw [htake]
    · rw [if_neg hc, if_neg (fun h => hc (of_decide_eq_true h))]
      simp
  | cons b bs ih =>
    intro start acc
    rw [List.foldl_cons]
    have hstep : chunk_step bytes (acc, start) b
        = ((if start < b ∧ 20 ≤ b - start then
              acc ++ [simple_hash ((bytes.drop start).take (b - start))]
            else acc), b) := rfl
    rw [hstep, ih]
    simp only [List.cons_append, List.zip_cons_cons, List.filter_cons]
    by_cases hc : start < b ∧ 20 ≤ b - start
    · rw [if_pos hc, if_pos (decide_eq_true hc)]
      simp
    · rw [if_neg hc, if_neg (fun h => hc (of_decide_eq_true h))]

/-- C1 (amended): in `extract_chunks`, `start` advances to every boundary
unconditionally, so the emitted chunks are exactly the fingerprints of the
spans between consecutive boundary positions (content start prepended,
content end appended) whose length is at least 20. A span shorter than 20
bytes — trailing or not — is dropped outright: its bytes belong to no
emitted chunk and are not merged into the following span. -/
theorem extract_chunks_eq_spans (content : List Nat)
    (h : 32 ≤ content.length) :
    extract_chunks content
      = ((List.zip (0 :: boundaries content)
            (boundaries content ++ [content.length])).filter
          (fun se => decide (se.1 < se.2 ∧ 20 ≤ se.2 - se.1))).map
          (fun se => simple_hash ((content.drop se.1).take (se.2 - se.1))) := by
  unfold extract_chunks
  rw [if_neg (by omega)]
  rw [append_ite_singleton]
  exact chunk_fold_spans content (boundaries content) 0 []

/-! ## Helper lemmas about the corpus index and the scorer -/

/-- Named form of the index-build loop body. -/
def index_step (fs : Nat → FileInfo) (target : Nat) (acc : List Nat)
    (p : Nat) : List Nat :=
  if p = target ∨ unwrap_or (fs p).binCheck true = true then acc
  else
    match (fs p).lines with
    | .error _ => acc
    | .ok ls => acc ++ extract_chunks (read_normalized_content ls)

/-- Fact: `corpus_index` is the fold of `index_step`. -/
theorem corpus_index_eq_foldl (fs : Nat → FileInfo) (target : Nat)
    (all_files : List Nat) :
    corpus_index fs target all_files
      = all_files.foldl (index_step fs target) [] := rfl

/-- The index fold only ever grows the accumulator. -/
theorem mem_foldl_index_step (fs : Nat → FileInfo) (t : Nat) :
    ∀ (files : List Nat) (acc : List Nat) (x : Nat),
      x ∈ acc → x ∈ files.foldl (index_step fs t) acc := by
  intro files
  induction files with
  | nil => intro acc x hx; exact hx
  | cons q files ih =>
    intro acc x hx
    rw [List.foldl_cons]
    apply ih
    unfold index_step
    split
    · exact hx
    · split
      · exact hx
      · exact List.mem_append_left _ hx

/-- A skipped binary sniff result means the sniff succeeded with `false`. -/
theorem binCheck_of_unwrap_false {e : Except Unit Bool}
    (h : unwrap_or e true = false) : e = .ok false := by
  cases e with
  | error u => exact absurd h (by simp [unwrap_or])
  | ok b =>
    cases b with
    | true => exact absurd h (by simp [unwrap_or])
    | false => rfl

/-- Every chunk fingerprint of a qualifying corpus member (present, distinct
from the target, sniffed non-binary, readable) lands in the index fold. -/
theorem mem_corpus_fold_of (fs : Nat → FileInfo) (t : Nat) {p : Nat}
    {L : List (List Nat)} {x : Nat} (hpt : p ≠ t)
    (hbin : (fs p).binCheck = .ok false) (hlines : (fs p).lines = .ok L)
    (hx : x ∈ extract_chunks (read_normalized_content L)) :
    ∀ (files : List Nat), p ∈ files →
      ∀ acc, x ∈ files.foldl (index_step fs t) acc := by
  intro files
  induction files with
  | nil => intro hp; cases hp
  | cons q files ih =>
    intro hp acc
    rw [List.foldl_cons]
    rcases List.mem_cons.mp hp with hpq | hq
    · subst hpq
      apply mem_foldl_index_step
      unfold index_step
      rw [if_neg]
      · rw [hlines]
        exact List.mem_append_right _ hx
      · rintro (h | h)
        · exact hpt h
        · rw [hbin] at h
          exact absurd h (by simp [unwrap_or])
    · exact ih hq _

/-- Membership form of `mem_corpus_fold_of`. -/
theorem mem_corpus_index_of (fs : Nat → FileInfo) (t : Nat) {p : Nat}
    {L : List (List Nat)} {x : Nat} (hpt : p ≠ t)
    (hbin : (fs p).binCheck = .ok false) (hlines : (fs p).lines = .ok L)
    (hx : x ∈ extract_chunks (read_normalized_content L))
    {files : List Nat} (hp : p ∈ files) :
    x ∈ corpus_index fs t files := by
  rw [corpus_index_eq_foldl]
  exact mem_corpus_fold_of fs t hpt hbin hlines hx files hp []

/-- Everything in the index fold comes from the accumulator or from a
qualifying corpus member. -/
theorem corpus_fold_mem (fs : Nat → FileInfo) (t : Nat) :
    ∀ (files : List Nat) (acc : List Nat) (x : Nat),
      x ∈ files.foldl (index_step fs t) acc →
      x ∈ acc ∨ ∃ p, p ∈ files ∧ p ≠ t ∧ (fs p).binCheck = .ok false ∧
        ∃ L, (fs p).lines = .ok L ∧
          x ∈ extract_chunks (read_normalized_content L) := by
  intro files
  induction files with
  | nil => intro acc x hx; exact Or.inl hx
  | cons q files ih =>
    intro acc x hx
    rw [List.foldl_cons] at hx
    rcases ih _ x hx with h | ⟨p, hp, h⟩
    · unfold index_step at h
      by_cases hcond : q = t ∨ unwrap_or (fs q).binCheck true = true
      · rw [if_pos hcond] at h
        exact Or.inl h
      · rw [if_neg hcond] at h
        push_neg at hcond
        have hqt : q ≠ t := hcond.1
        have hbin : (fs q).binCheck = .ok false :=
          binCheck_of_unwrap_false (by
            cases hu : unwrap_or (fs q).binCheck true with
            | true => exact absurd hu hcond.2
            | false => rfl)
        cases hql : (fs q).lines with
        | error u =>
          rw [hql] at h
          exact Or.inl h
        | ok L =>
          rw [hql] at h
          rcases List.mem_append.mp h with h2 | h2
          · exact Or.inl h2
          · exact Or.inr ⟨q, List.mem_cons_self _ _, hqt, hbin, L, hql, h2⟩
    · exact Or.inr ⟨p, List.mem_cons_of_mem _ hp, h⟩

/-- Everything in the corpus index comes from a qualifying corpus member. -/
theorem corpus_index_mem (fs : Nat → FileInfo) (t : Nat) (files : List Nat)
    (x : Nat) (hx : x ∈ corpus_index fs t files) :
    ∃ p, p ∈ files ∧ p ≠ t ∧ (fs p).binCheck = .ok false ∧
      ∃ L, (fs p).lines = .ok L ∧
        x ∈ extract_chunks (read_normalized_content L) := by
  rw [corpus_index_eq_foldl] at hx
  rcases corpus_fold_mem fs t files [] x hx with h | h
  · exact absurd h (List.not_mem_nil x)
  · exact h

/-- Unfolding the scorer on the non-short-circuit path. -/
theorem calc_unfold_ok (fs : Nat → FileInfo) (t : Nat) (files : List Nat)
    {L : List (List Nat)}
    (hbin : (fs t).binCheck = .ok false) (hlines : (fs t).lines = .ok L)
    (h100 : ¬(read_normalized_content L).length < 100)
    (hch : extract_chunks (read_normalized_content L) ≠ []) :
    calculate_duplication_percentage fs t files
      = .ok (min
          (((extract_chunks (read_normalized_content L)).filter
              (fun c => decide (c ∈ corpus_index fs t files))).length * 100
            / (extract_chunks (read_normalized_content L)).length) 100) := by
  unfold calculate_duplication_percentage
  split
  · rename_i e heq
    rw [hbin] at heq
    exact Except.noConfusion heq
  · rename_i heq
    rw [hbin] at heq
    exact absurd (Except.ok.inj heq) (by simp)
  · rename_i heq
    split
    · rename_i e heq2
      rw [hlines] at heq2
      exact Except.noConfusion heq2
    · rename_i tlines heq2
      rw [hlines] at heq2
      have hL := Except.ok.inj heq2
      subst hL
      rw [if_neg h100, if_neg hch]
      show Except.ok (min
          (if extract_chunks (read_normalized_content L) = [] then 0
            else (List.filter (fun c => decide (c ∈ corpus_index fs t files))
                (extract_chunks (read_normalized_content L))).length * 100
              / (extract_chunks (read_normalized_content L)).length) 100) = _
      rw [if_neg hch]

/-! ## Claim theorems -/

/-- C1 counterexample: on `shortSpanContent` (52 bytes, sole boundary at
position 19) the source's `extract_chunks` differs from the spec's
merge-forward conversion: the code discards the 19-byte leading span's
bytes (`start` still advances to the boundary), so the trailing chunk is
fingerprinted over bytes 19..52, not 0..52 as merging forward would give. -/
theorem extract_chunks_ne_mergeForward :
    extract_chunks shortSpanContent
      ≠ extract_chunks_mergeForward shortSpanContent := by
  decide

/-- C1 witness: the span characterization at the concrete counterexample
content. -/
theorem extract_chunks_eq_spans_witness :
    extract_chunks shortSpanContent
      = ((List.zip (0 :: boundaries shortSpanContent)
            (boundaries shortSpanContent ++ [shortSpanContent.length])).filter
          (fun se => decide (se.1 < se.2 ∧ 20 ≤ se.2 - se.1))).map
          (fun se =>
            simple_hash ((shortSpanContent.drop se.1).take (se.2 - se.1))) :=
  extract_chunks_eq_spans shortSpanContent (by decide)

/-- C2 counterexample: the line `"/#/"` normalizes to `"//"` — the `'#'`
removal runs after the `"//"` removal and splices the two slashes together,
so the normalized content does contain the substring `"//"`. -/
theorem normalized_content_contains_slashes :
    hasInfix [47, 47] (read_normalized_content [[47, 35, 47]]) = true := by
  decide

/-- C2 (amended): for every line list (lines as delivered by the reader,
hence free of `'\n'`), the normalized content has no blank line, and none
of its bytes is a space, a tab, a `'#'`, or an ASCII uppercase letter. The
claim's further guarantee — absence of the substrings `"//"`, `"/*"`,
`"*/"` — does not hold, because the later `'#'` removal can splice such
pairs together. -/
theorem normalization_invariant (lines : List (List Nat))
    (hl : ∀ l ∈ lines, (10 : Nat) ∉ l) :
    (∀ x ∈ read_normalized_content lines,
        x ≠ 32 ∧ x ≠ 9 ∧ x ≠ 35 ∧ ¬(65 ≤ x ∧ x ≤ 90)) ∧
    no_blank_lines (read_normalized_content lines) = true := by
  constructor
  · intro x hx
    rcases read_normalized_content_mem hx with rfl | ⟨l, _, hxl⟩
    · exact ⟨by omega, by omega, by omega, by omega⟩
    · exact normalize_line_byte_ok hxl
  · rw [read_normalized_content_eq_joinBlocks]
    unfold no_blank_lines
    apply noBlankAux_joinBlocks
    intro c hc
    rcases List.mem_filter.mp hc with ⟨hc1, hc2⟩
    rcases List.mem_map.mp hc1 with ⟨l, hls, rfl⟩
    constructor
    · intro hnil
      rw [hnil] at hc2
      simp at hc2
    · exact normalize_line_no_newline (hl l hls)

/-- C2 witness: the invariant evaluated on a concrete two-line file (one
line holding a `'#'` between slashes, one holding a space). -/
theorem normalization_invariant_witness :
    no_blank_lines
      (read_normalized_content [[47, 35, 47], [97, 32, 98]]) = true :=
  (normalization_invariant [[47, 35, 47], [97, 32, 98]] (by decide)).2

/-- C4: for every content and window position `i` (from the window size 32
up to the content length − 1), the incrementally maintained rolling hash
after the update at iteration `i` equals the direct polynomial-hash
recomputation over the current 32-byte window `content[i-31 ..= i]`. -/
theorem rolling_hash_matches_direct (bytes : List Nat) (i : Nat)
    (h1 : 32 ≤ i) (h2 : i < bytes.length) :
    rolling_hash_iter bytes (i - 31)
      = direct_hash ((bytes.drop (i - 31)).take 32) :=
  rolling_hash_eq_direct bytes (i - 31) (by omega)

/-- C4 witness: the rolling/direct agreement at window position 32 of a
40-byte content. -/
theorem rolling_hash_matches_direct_witness :
    rolling_hash_iter (List.replicate 40 97) (32 - 31)
      = direct_hash (((List.replicate 40 97).drop (32 - 31)).take 32) :=
  rolling_hash_matches_direct (List.replicate 40 97) 32 (by decide) (by decide)

/-- C9: the chunk fingerprint starts from 0, folds
`hash = hash * 31 + byte` with unsigned 64-bit wraparound over the bytes in
order, and is a function of the byte sequence alone — byte-identical chunks
always fingerprint identically. -/
theorem simple_hash_spec :
    simple_hash [] = 0 ∧
    (∀ bs b, simple_hash (bs ++ [b]) = (simple_hash bs * 31 + b) % 2 ^ 64) ∧
    (∀ bs cs, bs = cs → simple_hash bs = simple_hash cs) := by
  refine ⟨rfl, ?_, ?_⟩
  · intro bs b
    unfold simple_hash
    rw [List.foldl_append]
    rfl
  · intro bs cs h
    rw [h]

/-- C9 witness: the recurrence and the determinism conjunct at concrete
byte lists. -/
theorem simple_hash_spec_witness :
    simple_hash ([5] ++ [7]) = (simple_hash [5] * 31 + 7) % 2 ^ 64 ∧
    simple_hash [3, 4] = simple_hash [3, 4] :=
  ⟨simple_hash_spec.2.1 [5] 7, simple_hash_spec.2.2 [3, 4] [3, 4] rfl⟩

/-- C3: two non-binary, readable files with byte-identical normalized
contents of at least 100 bytes yielding at least one chunk score 100 when
one is the target and the other belongs to the corpus. -/
theorem identical_content_scores_100 (fs : Nat → FileInfo) (t o : Nat)
    (files : List Nat) {Lt Lo : List (List Nat)}
    (hto : o ≠ t) (hof : o ∈ files)
    (hbt : (fs t).binCheck = .ok false) (hlt : (fs t).lines = .ok Lt)
    (hbo : (fs o).binCheck = .ok false) (hlo : (fs o).lines = .ok Lo)
    (heq : read_normalized_content Lt = read_normalized_content Lo)
    (h100 : 100 ≤ (read_normalized_content Lt).length)
    (hch : extract_chunks (read_normalized_content Lt) ≠ []) :
    calculate_duplication_percentage fs t files = .ok 100 := by
  rw [calc_unfold_ok fs t files hbt hlt (by omega) hch]
  have hall : (extract_chunks (read_normalized_content Lt)).filter
      (fun c => decide (c ∈ corpus_index fs t files))
      = extract_chunks (read_normalized_content Lt) := by
    apply List.filter_eq_self.mpr
    intro a ha
    apply decide_eq_true
    exact mem_corpus_index_of fs t hto hbo hlo (heq ▸ ha) hof
  rw [hall]
  have hpos : 0 < (extract_chunks (read_normalized_content Lt)).length :=
    List.length_pos.mpr hch
  rw [Nat.mul_comm, Nat.mul_div_cancel _ hpos]
  simp

/-- C3 witness: two paths reading the same 100-character line score 100. -/
theorem identical_content_scores_100_witness :
    calculate_duplication_percentage demoFS 0 [0, 1] = .ok 100 :=
  identical_content_scores_100 demoFS 0 1 [0, 1] (by decide) (by decide)
    rfl rfl rfl rfl rfl (by decide) (by decide)

/-- C5: on the non-short-circuit path the returned score is exactly
`floor(duplicate_count * 100 / total_target_chunks)` clamped to 100, where
`duplicate_count` counts corpus-index hits once per occurrence in the
target's chunk list (`countP` over the chunk list, not over distinct
fingerprints); and every returned score is at most 100. -/
theorem duplication_score_formula_and_bounds (fs : Nat → FileInfo) (t : Nat)
    (files : List Nat) :
    (∀ L, (fs t).binCheck = .ok false → (fs t).lines = .ok L →
      100 ≤ (read_normalized_content L).length →
      extract_chunks (read_normalized_content L) ≠ [] →
      calculate_duplication_percentage fs t files
        = .ok (min
            ((extract_chunks (read_normalized_content L)).countP
                (fun c => decide (c ∈ corpus_index fs t files)) * 100
              / (extract_chunks (read_normalized_content L)).length) 100)) ∧
    (∀ s, calculate_duplication_percentage fs t files = .ok s → s ≤ 100) := by
  constructor
  · intro L hb hl h100 hch
    rw [calc_unfold_ok fs t files hb hl (by omega) hch]
    rw [List.countP_eq_length_filter]
  · intro s hs
    unfold calculate_duplication_percentage at hs
    split at hs
    · exact absurd hs (by simp)
    · have := Except.ok.inj hs
      omega
    · split at hs
      · exact absurd hs (by simp)
      · rename_i L heq
        replace hs :
            (if (read_normalized_content L).length < 100 then
                (Except.ok 0 : Except Unit Nat)
              else if extract_chunks (read_normalized_content L) = [] then
                Except.ok 0
              else Except.ok (min
                (if extract_chunks (read_normalized_content L) = [] then 0
                  else (List.filter
                      (fun c => decide (c ∈ corpus_index fs t files))
                      (extract_chunks (read_normalized_content L))).length
                    * 100 / (extract_chunks (read_normalized_content L)).length)
                100)) = Except.ok s := hs
        split at hs
        · have := Except.ok.inj hs
          omega
        · split at hs
          · have := Except.ok.inj hs
            omega
          · have := Except.ok.inj hs
            rw [← this]
            exact Nat.min_le_right _ _

/-- C5 witness: formula and bound evaluated on the concrete two-file
corpus. -/
theorem duplication_score_formula_and_bounds_witness :
    calculate_duplication_percentage demoFS 0 [0, 1]
      = .ok (min
          ((extract_chunks (read_normalized_content [demoLine])).countP
              (fun c => decide (c ∈ corpus_index demoFS 0 [0, 1])) * 100
            / (extract_chunks (read_normalized_content [demoLine])).length)
          100) ∧
    (100 : Nat) ≤ 100 :=
  ⟨(duplication_score_formula_and_bounds demoFS 0 [0, 1]).1 [demoLine]
      rfl rfl (by decide) (by decide),
   (duplication_score_formula_and_bounds demoFS 0 [0, 1]).2 100 (by decide)⟩

/-- The target-side short circuits of the scorer, as a reusable lemma. -/
theorem calc_short_circuit (fs : Nat → FileInfo) (t : Nat)
    (h : (fs t).binCheck = .ok true ∨
      ((fs t).binCheck = .ok false ∧ ∃ L, (fs t).lines = .ok L ∧
        ((read_normalized_content L).length < 100 ∨
          extract_chunks (read_normalized_content L) = []))) :
    ∀ (files : List Nat),
      calculate_duplication_percentage fs t files = .ok 0 := by
  intro files
  unfold calculate_duplication_percentage
  split
  · rename_i e heq
    rcases h with hb | ⟨hb, _, _, _⟩ <;> rw [hb] at heq <;>
      exact Except.noConfusion heq
  · rfl
  · rename_i heq
    rcases h with hb | ⟨hb, L, hl, hcase⟩
    · rw [hb] at heq
      exact absurd (Except.ok.inj heq) (by simp)
    · split
      · rename_i e heq2
        rw [hl] at heq2
        exact Except.noConfusion heq2
      · rename_i tlines heq2
        rw [hl] at heq2
        have hL := Except.ok.inj heq2
        subst hL
        by_cases h1 : (read_normalized_content L).length < 100
        · rw [if_pos h1]
        · rcases hcase with h2 | h2
          · exact absurd h2 h1
          · rw [if_neg h1, if_pos h2]

/-- C6: the scorer short-circuits to `Ok(0)` — binary target first, then
normalized content under 100 bytes (a 99-byte file scores 0 whatever the
corpus), then zero chunks — and in these cases the result depends only on
the target's own file data: any corpus and any file system agreeing on the
target give the same `Ok(0)`, so no corpus index is ever consulted. -/
theorem short_circuits_zero (fs : Nat → FileInfo) (t : Nat)
    (h : (fs t).binCheck = .ok true ∨
      ((fs t).binCheck = .ok false ∧ ∃ L, (fs t).lines = .ok L ∧
        ((read_normalized_content L).length < 100 ∨
          extract_chunks (read_normalized_content L) = []))) :
    ∀ (files : List Nat) (fs' : Nat → FileInfo), fs' t = fs t →
      calculate_duplication_percentage fs' t files = .ok 0 := by
  intro files fs' hft
  apply calc_short_circuit
  rw [hft]
  exact h

/-- C6 witness: a target whose normalized content is exactly 99 bytes
scores 0 against a corpus that would otherwise match it. -/
theorem short_circuits_zero_witness :
    calculate_duplication_percentage smallFS 0 [0, 1] = .ok 0 :=
  short_circuits_zero smallFS 0
    (Or.inr ⟨rfl, [List.replicate 98 97], rfl, Or.inl (by decide)⟩)
    [0, 1] smallFS rfl

/-- C7: every fingerprint in the corpus index comes from a corpus member
other than the target that passed the binary sniff and was readable
(self-exclusion, binary exclusion, unreadable exclusion); in particular a
target whose sniff and read succeed scores 0 against the singleton corpus
holding only itself, whatever its content. -/
theorem corpus_self_exclusion (fs : Nat → FileInfo) (t : Nat)
    (files : List Nat) :
    (∀ c ∈ corpus_index fs t files, ∃ p, p ∈ files ∧ p ≠ t ∧
        (fs p).binCheck = .ok false ∧ ∃ L, (fs p).lines = .ok L ∧
          c ∈ extract_chunks (read_normalized_content L)) ∧
    (∀ b L, (fs t).binCheck = .ok b → (fs t).lines = .ok L →
      calculate_duplication_percentage fs t [t] = .ok 0) := by
  constructor
  · intro c hc
    exact corpus_index_mem fs t files c hc
  · intro b L hb hl
    cases b with
    | true =>
      unfold calculate_duplication_percentage
      rw [hb]
    | false =>
      by_cases h1 : (read_normalized_content L).length < 100
      · exact calc_short_circuit fs t (Or.inr ⟨hb, L, hl, Or.inl h1⟩) [t]
      · by_cases h2 : extract_chunks (read_normalized_content L) = []
        · exact calc_short_circuit fs t (Or.inr ⟨hb, L, hl, Or.inr h2⟩) [t]
        · have hidx : corpus_index fs t [t] = [] := by
            rw [corpus_index_eq_foldl]
            show index_step fs t [] t = []
            unfold index_step
            rw [if_pos (Or.inl rfl)]
          rw [calc_unfold_ok fs t [t] hb hl h1 h2, hidx]
          have hfil : (extract_chunks (read_normalized_content L)).filter
              (fun c => decide (c ∈ ([] : List Nat))) = [] := by
            apply List.filter_eq_nil_iff.mpr
            intro a _
            simp
          rw [hfil]
          simp

/-- C7 witness: a readable, non-binary 101-byte target against the
singleton corpus of itself scores 0. -/
theorem corpus_self_exclusion_witness :
    calculate_duplication_percentage demoFS 0 [0] = .ok 0 :=
  (corpus_self_exclusion demoFS 0 [0]).2 false [demoLine] rfl rfl

/-- C8: an I/O failure degrades, never aborts. A corpus member whose binary
sniff fails, or is sniffed non-binary but whose content read fails,
contributes nothing: deleting it from the corpus leaves the score
unchanged. And a target whose sniff or read fails makes the scoring pass's
displayed value (`calculate_duplication_percentage(..).unwrap_or(0)` in
`main`) 0 rather than an abort. -/
theorem io_failure_degrades_to_zero (fs : Nat → FileInfo) (t p : Nat)
    (files₁ files₂ : List Nat)
    (hp : (fs p).binCheck = .error () ∨
      ((fs p).binCheck = .ok false ∧ (fs p).lines = .error ())) :
    calculate_duplication_percentage fs t (files₁ ++ p :: files₂)
        = calculate_duplication_percentage fs t (files₁ ++ files₂) ∧
    (∀ t', ((fs t').binCheck = .error () ∨
        ((fs t').binCheck = .ok false ∧ (fs t').lines = .error ())) →
      ∀ files', MainRs.display_duplication fs t' files' = 0) := by
  constructor
  · have hstep : ∀ acc, index_step fs t acc p = acc := by
      intro acc
      unfold index_step
      rcases hp with hb | ⟨hb, hl⟩
      · rw [if_pos (Or.inr (by rw [hb]; rfl))]
      · by_cases hpt : p = t
        · rw [if_pos (Or.inl hpt)]
        · rw [if_neg (by
            rintro (h | h)
            · exact hpt h
            · rw [hb] at h
              exact absurd h (by simp [unwrap_or]))]
          rw [hl]
    have hidx : corpus_index fs t (files₁ ++ p :: files₂)
        = corpus_index fs t (files₁ ++ files₂) := by
      rw [corpus_index_eq_foldl, corpus_index_eq_foldl]
      rw [List.foldl_append, List.foldl_append, List.foldl_cons, hstep]
    unfold calculate_duplication_percentage
    rw [hidx]
  · intro t' ht' files'
    unfold MainRs.display_duplication
    have herr : MainRs.calculate_duplication_percentage fs t' files'
        = .error () := by
      unfold MainRs.calculate_duplication_percentage
      rcases ht' with hb | ⟨hb, hl⟩
      · rw [hb]
      · rw [hb, hl]
    rw [herr]
    rfl

/-- C8 witness: dropping the unreadable path 1 from the corpus leaves the
score unchanged, and path 1 as target displays 0. -/
theorem io_failure_degrades_to_zero_witness :
    calculate_duplication_percentage errFS 0 [1]
        = calculate_duplication_percentage errFS 0 [] ∧
    MainRs.display_duplication errFS 1 [0] = 0 :=
  ⟨(io_failure_degrades_to_zero errFS 0 1 [] [] (Or.inl (by decide))).1,
   (io_failure_degrades_to_zero errFS 0 1 [] [] (Or.inl (by decide))).2 1
     (Or.inl (by decide)) [0]⟩

/-! ## Equivalence of the `src/main.rs` private copy -/

/-- The two `normalize_line`s agree: a single-character string pattern
removal is the same as the char-pattern filter. -/
theorem mainRs_normalize_line_eq (l : List Nat) :
    MainRs.normalize_line l = normalize_line l := by
  unfold MainRs.normalize_line normalize_line
  rw [removeSubAll_singleton]

/-- The two `read_normalized_content`s agree. -/
theorem mainRs_read_normalized_content_eq (ls : List (List Nat)) :
    MainRs.read_normalized_content ls = read_normalized_content ls := by
  unfold MainRs.read_normalized_content read_normalized_content
  congr 1
  funext acc l
  rw [mainRs_normalize_line_eq]

/-- The two rolling-hash recurrences agree. -/
theorem mainRs_rolling_hash_iter_eq (bytes : List Nat) :
    ∀ k, MainRs.rolling_hash_iter bytes k = rolling_hash_iter bytes k := by
  intro k
  induction k with
  | zero => rfl
  | succ k ih =>
    show MainRs.roll_step (MainRs.rolling_hash_iter bytes k) _ _
        = roll_step (rolling_hash_iter bytes k) _ _
    rw [ih]
    rfl

/-- The two boundary lists agree. -/
theorem mainRs_boundaries_eq (bytes : List Nat) :
    MainRs.boundaries bytes = boundaries bytes := by
  unfold MainRs.boundaries boundaries
  congr 1
  funext k
  rw [mainRs_rolling_hash_iter_eq]

/-- The two fingerprint functions agree. -/
theorem mainRs_simple_hash_eq : MainRs.simple_hash = simple_hash := rfl

/-- The two boundary-loop bodies agree. -/
theorem mainRs_chunk_step_eq : MainRs.chunk_step = chunk_step := rfl

/-- The two chunkers agree. -/
theorem mainRs_extract_chunks_eq (c : List Nat) :
    MainRs.extract_chunks c = extract_chunks c := by
  unfold MainRs.extract_chunks extract_chunks
  rw [mainRs_boundaries_eq]
  simp only [mainRs_chunk_step_eq, mainRs_simple_hash_eq]

/-- The two corpus-index builders agree. -/
theorem mainRs_corpus_index_eq (fs : Nat → FileInfo) (t : Nat)
    (files : List Nat) :
    MainRs.corpus_index fs t files = corpus_index fs t files := by
  unfold MainRs.corpus_index corpus_index
  apply List.foldl_ext
  intro acc p _
  by_cases hc : p = t ∨ unwrap_or (fs p).binCheck true = true
  · rw [if_pos hc, if_pos hc]
  · rw [if_neg hc, if_neg hc]
    cases hl : (fs p).lines with
    | error u => rfl
    | ok ls =>
      show acc ++ MainRs.extract_chunks (MainRs.read_normalized_content ls)
          = acc ++ extract_chunks (read_normalized_content ls)
      rw [mainRs_extract_chunks_eq, mainRs_read_normalized_content_eq]

/-- C10: the private copy of the duplication core in `src/main.rs` computes
exactly what the public implementation in `src/analysis.rs` computes —
function by function (`normalize_line`, `read_normalized_content`,
`extract_chunks`, `fast_pow`, `simple_hash`) and for the full
`calculate_duplication_percentage` on every file system, target and file
list. -/
theorem main_private_copy_equivalent :
    (∀ l, MainRs.normalize_line l = normalize_line l) ∧
    (∀ ls, MainRs.read_normalized_content ls = read_normalized_content ls) ∧
    (∀ c, MainRs.extract_chunks c = extract_chunks c) ∧
    (∀ b e m, MainRs.fast_pow b e m = fast_pow b e m) ∧
    (∀ bs, MainRs.simple_hash bs = simple_hash bs) ∧
    (∀ fs t files, MainRs.calculate_duplication_percentage fs t files
        = calculate_duplication_percentage fs t files) := by
  refine ⟨mainRs_normalize_line_eq, mainRs_read_normalized_content_eq,
    mainRs_extract_chunks_eq, fun b e m => rfl, fun bs => rfl, ?_⟩
  intro fs t files
  unfold MainRs.calculate_duplication_percentage
    calculate_duplication_percentage
  split
  · rfl
  · rfl
  · split
    · rfl
    · simp only [mainRs_read_normalized_content_eq, mainRs_extract_chunks_eq,
        mainRs_corpus_index_eq]
